import Mathlib

/-!
Verification of the beats record store (Go sources under `internal/store`,
`internal/beat`, `internal/cli` and the embeddings package).

Shallow embedding conventions:
* Machine strings are Lean `String`s, but every operation is defined over
  `String.data : List Char` so that all definitions reduce in the kernel.
  The Go byte-oriented functions (`strings.Contains`, `strings.ToLower`,
  `strings.HasPrefix`, `strconv.Atoi`) agree with these character-level
  models on the ASCII data the store manipulates.
* Search scores are `float64` in Go, but the keyword scorer only ever
  produces the exact values 0.0, 0.5 and 1.0 (`score += 0.5` per matched
  field).  We represent a score s by the integer 2*s, i.e. `1` stands for
  0.5 and `2` stands for 1.0; order and positivity are preserved exactly.
* The JSONL file is modeled as `Option (List String)` (`none` = the file
  does not exist, otherwise the list of its lines); `json.Unmarshal` of a
  line is an abstract parameter `parse : String → Option Beat`.
* `float64` embedding vector entries are modeled by their IEEE-754 bit
  patterns (`Nat` below `2^64`), since the vector store moves them with
  `math.Float64bits`/`math.Float64frombits` raw bit copies.
* File-system effects are made explicit: store operations take the parsed
  record list (or the line list) as a state argument and return the new
  state; the Go error paths that return before `rewriteUnlocked` leave the
  state argument untouched, exactly as the code leaves the file untouched.
* `time.Now()` is passed in explicitly (`today` date string, `now`
  timestamp), and the Ollama/semantic environment is an explicit oracle
  (`SemanticEnv`).
-/

set_option maxRecDepth 200000

namespace Beats

/-! ## Character/string primitives (Go `strings` and `strconv`) -/

/-- Go `unicode.ToLower` as used by `strings.ToLower`, on the ASCII range. -/
def lowerChar (c : Char) : Char :=
  if 65 ≤ c.toNat ∧ c.toNat ≤ 90 then Char.ofNat (c.toNat + 32) else c

/-- Go `strings.ToLower`. -/
def toLower (s : String) : String := ⟨s.data.map lowerChar⟩

/-- Go `strings.Contains s sub`: some position of `s` starts with `sub`. -/
def strContains (s sub : String) : Bool :=
  (List.range (s.data.length + 1)).any fun i => sub.data.isPrefixOf (s.data.drop i)

/-- Go `strings.HasPrefix s pre`. -/
def hasPrefix (s pre : String) : Bool := pre.data.isPrefixOf s.data

/-- Go `strings.TrimPrefix s pre` after a positive `HasPrefix` check:
drop the first `n` characters. -/
def dropChars (s : String) (n : Nat) : String := ⟨s.data.drop n⟩

/-- ASCII whitespace recognized by Go `unicode.IsSpace`. -/
def isSpaceChar (c : Char) : Bool :=
  c == ' ' || c == '\t' || c == '\n' || c == '\r' || c == '\x0b' || c == '\x0c'

/-- Go `strings.TrimSpace line == ""`: every character is whitespace. -/
def isBlank (s : String) : Bool := s.data.all isSpaceChar

/-- Decimal digit value of a character, if it is a digit. -/
def digitVal (c : Char) : Option Nat :=
  if 48 ≤ c.toNat ∧ c.toNat ≤ 57 then some (c.toNat - 48) else none

def parseDigitsAux : List Char → Nat → Option Nat
  | [], acc => some acc
  | c :: rest, acc =>
    match digitVal c with
    | some d => parseDigitsAux rest (acc * 10 + d)
    | none => none

/-- Digits of a decimal numeral; `none` on the empty string or a non-digit. -/
def parseDigits : List Char → Option Nat
  | [] => none
  | l => parseDigitsAux l 0

/-- Go `strconv.Atoi`: optional sign followed by decimal digits. -/
def goAtoi (s : String) : Option Int :=
  match s.data with
  | [] => none
  | '+' :: rest => (parseDigits rest).map (fun n => (n : Int))
  | '-' :: rest => (parseDigits rest).map (fun n => -(n : Int))
  | l => (parseDigits l).map (fun n => (n : Int))

def digitChar (n : Nat) : Char := Char.ofNat (48 + n)

def natDigitsAux : Nat → Nat → List Char
  | 0, _ => []
  | fuel + 1, n =>
    if n < 10 then [digitChar n]
    else natDigitsAux fuel (n / 10) ++ [digitChar (n % 10)]

/-- Decimal digits of a natural number, most significant first. -/
def natDigits (n : Nat) : List Char := natDigitsAux (n + 1) n

def padZeros (l : List Char) (w : Nat) : List Char :=
  List.replicate (w - l.length) '0' ++ l

/-- Go `fmt.Sprintf("%03d", z)`: zero-pad to total width 3, sign included. -/
def goPad3 (z : Int) : String :=
  if z < 0 then ⟨'-' :: padZeros (natDigits z.natAbs) 2⟩
  else ⟨padZeros (natDigits z.toNat) 3⟩

/-! ## Data model (`internal/beat/schema.go`) -/

/-- Model of `beat.Impetus` (provenance): label plus optional raw source text. -/
structure Impetus where
  label : String
  raw : String := ""
  deriving Repr, DecidableEq

/-- Model of `beat.Beat`, restricted to the fields the store operations read or
write (`references`, `entities`, `session_id`, `context` are carried along
unchanged by every operation modeled here). Timestamps are opaque ticks. -/
structure Beat where
  id : String
  createdAt : Int
  updatedAt : Int
  impetus : Impetus
  content : String
  linkedBeads : List String := []
  deriving Repr, DecidableEq

/-- Model of `beat.SearchResult`; `score` is in half units (see the header note). -/
structure SearchResult where
  id : String
  score : Int
  content : String
  impetus : Impetus
  deriving Repr, DecidableEq

/-- Error taxonomy of the store (`fmt.Errorf` strings in Go). -/
inductive StoreError where
  | notFound (id : String)
  | corruptLog (lineNum : Nat)
  | updaterFailed (msg : String)
  deriving Repr, DecidableEq

/-! ## Canonical log store (`internal/store/jsonl.go`) -/

/-- Loop body of `readAllUnlocked`: `processed` lines were already consumed,
so the current line is number `processed + 1` (1-based, as in Go where
`lineNum++` runs before the parse). -/
def readLines (parse : String → Option Beat) :
    List String → Nat → Except StoreError (List Beat)
  | [], _ => .ok []
  | line :: rest, processed =>
    if isBlank line then readLines parse rest (processed + 1)
    else
      match parse line with
      | none => .error (.corruptLog (processed + 1))
      | some b => (readLines parse rest (processed + 1)).map (fun bs => b :: bs)

/-- Model of `JSONLStore.ReadAll` / `readAllUnlocked`: a missing file is an empty
store; otherwise parse every non-blank line. -/
def ReadAll (parse : String → Option Beat) :
    Option (List String) → Except StoreError (List Beat)
  | none => .ok []
  | some lines => readLines parse lines 0

/-- Loop body of `JSONLStore.NextSequence`. -/
def nextSeqStep (pfx : String) (maxSeq : Int) (b : Beat) : Int :=
  if hasPrefix b.id pfx then
    match goAtoi (dropChars b.id pfx.data.length) with
    | some seq => if maxSeq < seq then seq else maxSeq
    | none => maxSeq
  else maxSeq

/-- Model of `JSONLStore.NextSequence` on the current record list; `today` is the
`time.Now().UTC().Format("20060102")` date string, passed explicitly. -/
def NextSequence (beats : List Beat) (today : String) : Int :=
  List.foldl (nextSeqStep ("beat-" ++ today ++ "-")) 0 beats + 1

/-- The sequence number the `NextSequence` loop extracts from one record:
present iff the id carries today's prefix and the suffix parses. -/
def seqOf (today : String) (b : Beat) : Option Int :=
  if hasPrefix b.id ("beat-" ++ today ++ "-") then
    goAtoi (dropChars b.id ("beat-" ++ today ++ "-").data.length)
  else none

/-- All sequence numbers of records whose id matches the given date. -/
def matchingSeqs (beats : List Beat) (today : String) : List Int :=
  beats.filterMap (seqOf today)

/-- Scoring step of `JSONLStore.Search` (query already lowercased):
half a point per matching field, in half units. -/
def scoreBeat (q : String) (b : Beat) : Int :=
  (if strContains (toLower b.content) q then 1 else 0) +
  (if strContains (toLower b.impetus.label) q then 1 else 0)

/-- The scan loop of `JSONLStore.Search`: positive-score records, in the
original scan order. -/
def scanResults (beats : List Beat) (q : String) : List SearchResult :=
  beats.filterMap fun b =>
    if 0 < scoreBeat q b then some ⟨b.id, scoreBeat q b, b.content, b.impetus⟩
    else none

/-- Insertion step of the stable reference sort `sortByScoreDesc`. -/
def insertDesc (x : SearchResult) : List SearchResult → List SearchResult
  | [] => [x]
  | y :: ys => if y.score ≤ x.score then x :: y :: ys else y :: insertDesc x ys

/-- Reference sort: the stable descending insertion sort.  Go's
`sort.Slice` (jsonl.go:211) is NOT stable and is not this algorithm: it
produces the same descending multiset of scores but may emit equal-score
entries in a different order once more than 12 records match — see
`sortSliceGo` below, the faithful port of the stdlib pdqsort, and the C4
counterexample.  Claims stated over this reference model rely on it
agreeing with the program at the relevant inputs: C5's truncation
conjuncts are insensitive to the order within the sorted list, and on
C10's all-equal-score inputs `sort.Slice` performs zero swaps (its
insertion-sort path swaps only strictly out-of-order adjacent pairs, and
its `partialInsertionSort` returns an already-descending range
untouched), matching this model exactly.  C4's tie-order question is
settled against `sortSliceGo`. -/
def sortByScoreDesc : List SearchResult → List SearchResult
  | [] => []
  | x :: xs => insertDesc x (sortByScoreDesc xs)

/-- Model of `JSONLStore.Search` over an already-read record list. -/
def Search (beats : List Beat) (query : String) (maxResults : Int) :
    List SearchResult :=
  let results := sortByScoreDesc (scanResults beats (toLower query))
  if 0 < maxResults ∧ maxResults < (results.length : Int) then
    results.take maxResults.toNat
  else results

/-- Model of `JSONLStore.Search` from the file: `ReadAll`, then scan. -/
def SearchStore (parse : String → Option Beat) (file : Option (List String))
    (query : String) (maxResults : Int) : Except StoreError (List SearchResult) :=
  (ReadAll parse file).map fun beats => Search beats query maxResults

/-! ## Faithful port of Go `sort.Slice` (pdqsort)

`JSONLStore.Search` sorts with `sort.Slice(results, less)` where
`less(i, j) = results[i].Score > results[j].Score`.  Since Go 1.19,
`sort.Slice` runs the pattern-defeating quicksort of `sort/zsortfunc.go`;
it is not a stable sort.  The port below follows that file function by
function (`insertionSort`, `siftDown`/`heapSort`,
`order2`/`median`/`medianAdjacent`/`choosePivot`, `reverseRange`,
`breakPatterns` with its deterministic xorshift, `partialInsertionSort`,
`partition`, `partitionEqual`, `pdqsort` and the `sort.Slice` entry with
`limit = bits.Len(length)`), specialized to this comparator.  Loops are
fuel recursion; the fuel dominates every loop bound (each iteration
advances an index or shrinks the range), so the fuel-exhaustion branches
are never taken.  Out-of-range reads return a dummy record and swaps are
bounds-checked no-ops — situations in which Go would panic and which the
algorithm never produces. -/

def dummyResult : SearchResult := ⟨"", 0, "", ⟨"", ""⟩⟩

def lessAt (l : List SearchResult) (i j : Nat) : Bool :=
  decide ((l.getD j dummyResult).score < (l.getD i dummyResult).score)

def swapAt (l : List SearchResult) (i j : Nat) : List SearchResult :=
  if i < l.length ∧ j < l.length then
    (l.set i (l.getD j dummyResult)).set j (l.getD i dummyResult)
  else l

def bitsLenAux : Nat → Nat → Nat
  | 0, _ => 0
  | fuel + 1, n => if n = 0 then 0 else bitsLenAux fuel (n / 2) + 1

def bitsLen (n : Nat) : Nat := bitsLenAux (n + 1) n

def insertInner (a : Nat) : Nat → List SearchResult → List SearchResult
  | 0, l => l
  | j + 1, l =>
    if a < j + 1 ∧ lessAt l (j + 1) j = true then insertInner a j (swapAt l (j + 1) j)
    else l

def insertionSortAux (a b : Nat) : Nat → Nat → List SearchResult → List SearchResult
  | 0, _, l => l
  | fuel + 1, i, l => if i < b then insertionSortAux a b fuel (i + 1) (insertInner a i l) else l

def insertionSortGo (a b : Nat) (l : List SearchResult) : List SearchResult :=
  insertionSortAux a b b (a + 1) l

def siftDownAux (hi first : Nat) : Nat → Nat → List SearchResult → List SearchResult
  | 0, _, l => l
  | fuel + 1, root, l =>
    if hi ≤ 2 * root + 1 then l
    else
      let child :=
        if 2 * root + 2 < hi ∧ lessAt l (first + 2 * root + 1) (first + 2 * root + 2) = true
        then 2 * root + 2 else 2 * root + 1
      if lessAt l (first + root) (first + child) = false then l
      else siftDownAux hi first fuel child (swapAt l (first + root) (first + child))

def siftDownGo (l : List SearchResult) (lo hi first : Nat) : List SearchResult :=
  siftDownAux hi first (hi + 1) lo l

def heapBuild (hi first : Nat) : Nat → List SearchResult → List SearchResult
  | 0, l => l
  | i + 1, l => heapBuild hi first i (siftDownGo l i hi first)

def heapPop (first : Nat) : Nat → List SearchResult → List SearchResult
  | 0, l => l
  | i + 1, l => heapPop first i (siftDownGo (swapAt l first (first + i)) 0 i first)

def heapSortGo (l : List SearchResult) (a b : Nat) : List SearchResult :=
  heapPop a (b - a) (heapBuild (b - a) a ((b - a - 1) / 2 + 1) l)

def order2Go (l : List SearchResult) (a b swaps : Nat) : Nat × Nat × Nat :=
  if lessAt l b a = true then (b, a, swaps + 1) else (a, b, swaps)

def medianGo (l : List SearchResult) (a b c swaps : Nat) : Nat × Nat :=
  let p1 := order2Go l a b swaps
  let p2 := order2Go l p1.2.1 c p1.2.2
  let p3 := order2Go l p1.1 p2.1 p2.2.2
  (p3.2.1, p3.2.2)

def medianAdjacentGo (l : List SearchResult) (a swaps : Nat) : Nat × Nat :=
  medianGo l (a - 1) a (a + 1) swaps

inductive Hint where
  | increasing
  | decreasing
  | unknown
  deriving DecidableEq, Repr

def hintFromSwaps (s : Nat) : Hint :=
  if s = 0 then .increasing else if s = 12 then .decreasing else .unknown

def choosePivotGo (l : List SearchResult) (a b : Nat) : Nat × Hint :=
  let len := b - a
  let i0 := a + len / 4 * 1
  let j0 := a + len / 4 * 2
  let k0 := a + len / 4 * 3
  if 8 ≤ len then
    if 50 ≤ len then
      let mi := medianAdjacentGo l i0 0
      let mj := medianAdjacentGo l j0 mi.2
      let mk := medianAdjacentGo l k0 mj.2
      let mf := medianGo l mi.1 mj.1 mk.1 mk.2
      (mf.1, hintFromSwaps mf.2)
    else
      let mf := medianGo l i0 j0 k0 0
      (mf.1, hintFromSwaps mf.2)
  else (j0, hintFromSwaps 0)

def revAux : Nat → Nat → Nat → List SearchResult → List SearchResult
  | 0, _, _, l => l
  | fuel + 1, i, j, l => if i < j then revAux fuel (i + 1) (j - 1) (swapAt l i j) else l

def reverseRangeGo (l : List SearchResult) (a b : Nat) : List SearchResult :=
  revAux b a (b - 1) l

def xorshiftNext (r : Nat) : Nat :=
  let r1 := r ^^^ ((r <<< 13) % 2 ^ 64)
  let r2 := r1 ^^^ (r1 >>> 7)
  r2 ^^^ ((r2 <<< 17) % 2 ^ 64)

def nextPowerOfTwoGo (length : Nat) : Nat := 2 ^ bitsLen length

def breakIdx (modulus length r : Nat) : Nat :=
  let other := r &&& (modulus - 1)
  if length ≤ other then other - length else other

def breakPatternsGo (l : List SearchResult) (a b : Nat) : List SearchResult :=
  let length := b - a
  if 8 ≤ length then
    let r1 := xorshiftNext length
    let r2 := xorshiftNext r1
    let r3 := xorshiftNext r2
    let modulus := nextPowerOfTwoGo length
    let idx := a + length / 4 * 2 - 1
    swapAt (swapAt (swapAt l (idx - 1) (a + breakIdx modulus length r1)) idx
      (a + breakIdx modulus length r2)) (idx + 1) (a + breakIdx modulus length r3)
  else l

def scanSorted (l : List SearchResult) (b : Nat) : Nat → Nat → Nat
  | 0, i => i
  | fuel + 1, i => if i < b ∧ lessAt l i (i - 1) = false then scanSorted l b fuel (i + 1) else i

def shiftLeftGo : Nat → List SearchResult → List SearchResult
  | 0, l => l
  | j + 1, l => if lessAt l (j + 1) j = true then shiftLeftGo j (swapAt l (j + 1) j) else l

def shiftRightGo (b : Nat) : Nat → Nat → List SearchResult → List SearchResult
  | 0, _, l => l
  | fuel + 1, j, l =>
    if j < b ∧ lessAt l j (j - 1) = true then shiftRightGo b fuel (j + 1) (swapAt l j (j - 1))
    else l

def partialAux (a b : Nat) : Nat → Nat → List SearchResult → List SearchResult × Bool
  | 0, _, l => (l, false)
  | steps + 1, i, l =>
    let i2 := scanSorted l b b i
    if i2 = b then (l, true)
    else if b - a < 50 then (l, false)
    else
      let l1 := swapAt l i2 (i2 - 1)
      let l2 := if 2 ≤ i2 - a then shiftLeftGo (i2 - 1) l1 else l1
      let l3 := if 2 ≤ b - i2 then shiftRightGo b b (i2 + 1) l2 else l2
      partialAux a b steps i2 l3

def partialInsertionSortGo (l : List SearchResult) (a b : Nat) : List SearchResult × Bool :=
  partialAux a b 5 (a + 1) l

def scanLess (l : List SearchResult) (aIdx : Nat) : Nat → Nat → Nat → Nat
  | 0, i, _ => i
  | fuel + 1, i, j => if i ≤ j ∧ lessAt l i aIdx = true then scanLess l aIdx fuel (i + 1) j else i

def scanNotLess (l : List SearchResult) (aIdx : Nat) : Nat → Nat → Nat → Nat
  | 0, _, j => j
  | fuel + 1, i, j => if i ≤ j ∧ lessAt l j aIdx = false then scanNotLess l aIdx fuel i (j - 1) else j

def partInner (aIdx b : Nat) : Nat → List SearchResult → Nat → Nat → List SearchResult × Nat
  | 0, l, _, j => (l, j)
  | fuel + 1, l, i, j =>
    let i2 := scanLess l aIdx b i j
    let j2 := scanNotLess l aIdx b i2 j
    if j2 < i2 then (l, j2)
    else partInner aIdx b fuel (swapAt l i2 j2) (i2 + 1) (j2 - 1)

def partitionGo (l0 : List SearchResult) (a b pivot : Nat) : List SearchResult × Nat × Bool :=
  let l1 := swapAt l0 a pivot
  let i0 := scanLess l1 a b (a + 1) (b - 1)
  let j0 := scanNotLess l1 a b i0 (b - 1)
  if j0 < i0 then (swapAt l1 j0 a, j0, true)
  else
    let p := partInner a b b (swapAt l1 i0 j0) (i0 + 1) (j0 - 1)
    (swapAt p.1 p.2 a, p.2, false)

def scanNotLessPiv (l : List SearchResult) (aIdx : Nat) : Nat → Nat → Nat → Nat
  | 0, i, _ => i
  | fuel + 1, i, j =>
    if i ≤ j ∧ lessAt l aIdx i = false then scanNotLessPiv l aIdx fuel (i + 1) j else i

def scanLessPiv (l : List SearchResult) (aIdx : Nat) : Nat → Nat → Nat → Nat
  | 0, _, j => j
  | fuel + 1, i, j =>
    if i ≤ j ∧ lessAt l aIdx j = true then scanLessPiv l aIdx fuel i (j - 1) else j

def peInner (aIdx b : Nat) : Nat → List SearchResult → Nat → Nat → List SearchResult × Nat
  | 0, l, i, _ => (l, i)
  | fuel + 1, l, i, j =>
    let i2 := scanNotLessPiv l aIdx b i j
    let j2 := scanLessPiv l aIdx b i2 j
    if j2 < i2 then (l, i2)
    else peInner aIdx b fuel (swapAt l i2 j2) (i2 + 1) (j2 - 1)

def partitionEqualGo (l0 : List SearchResult) (a b pivot : Nat) : List SearchResult × Nat :=
  peInner a b b (swapAt l0 a pivot) (a + 1) (b - 1)

def pdqsortGo : Nat → List SearchResult → Nat → Nat → Nat → Bool → Bool → List SearchResult
  | 0, l, _, _, _, _, _ => l
  | fuel + 1, l, a, b, limit, wasBalanced, wasPartitioned =>
    if b - a ≤ 12 then insertionSortGo a b l
    else if limit = 0 then heapSortGo l a b
    else
      let l1 := if wasBalanced then l else breakPatternsGo l a b
      let limit1 := if wasBalanced then limit else limit - 1
      let pivot0 := (choosePivotGo l1 a b).1
      let hint0 := (choosePivotGo l1 a b).2
      let l2 := if hint0 = Hint.decreasing then reverseRangeGo l1 a b else l1
      let pivot1 := if hint0 = Hint.decreasing then (b - 1) - (pivot0 - a) else pivot0
      let hint1 := if hint0 = Hint.decreasing then Hint.increasing else hint0
      if (wasBalanced = true ∧ wasPartitioned = true ∧ hint1 = Hint.increasing) ∧
          (partialInsertionSortGo l2 a b).2 = true then
        (partialInsertionSortGo l2 a b).1
      else
        let l3 := if wasBalanced = true ∧ wasPartitioned = true ∧ hint1 = Hint.increasing
                  then (partialInsertionSortGo l2 a b).1 else l2
        if 0 < a ∧ lessAt l3 (a - 1) pivot1 = false then
          pdqsortGo fuel (partitionEqualGo l3 a b pivot1).1 (partitionEqualGo l3 a b pivot1).2
            b limit1 wasBalanced wasPartitioned
        else
          if (partitionGo l3 a b pivot1).2.1 - a < b - (partitionGo l3 a b pivot1).2.1 then
            pdqsortGo fuel
              (pdqsortGo fuel (partitionGo l3 a b pivot1).1 a (partitionGo l3 a b pivot1).2.1
                limit1 true true)
              ((partitionGo l3 a b pivot1).2.1 + 1) b limit1
              (decide ((b - a) / 8 ≤
                min ((partitionGo l3 a b pivot1).2.1 - a) (b - (partitionGo l3 a b pivot1).2.1)))
              (partitionGo l3 a b pivot1).2.2
          else
            pdqsortGo fuel
              (pdqsortGo fuel (partitionGo l3 a b pivot1).1 ((partitionGo l3 a b pivot1).2.1 + 1) b
                limit1 true true)
              a (partitionGo l3 a b pivot1).2.1 limit1
              (decide ((b - a) / 8 ≤
                min ((partitionGo l3 a b pivot1).2.1 - a) (b - (partitionGo l3 a b pivot1).2.1)))
              (partitionGo l3 a b pivot1).2.2

def sortSliceGo (l : List SearchResult) : List SearchResult :=
  pdqsortGo (2 * l.length + 64) l 0 l.length (bitsLen l.length) true true

/-- Model of `JSONLStore.Search` with the sort taken literally: identical
to `Search` except that the results are ordered by `sortSliceGo`, the
faithful port of the `sort.Slice` call at jsonl.go:211, instead of the
stable reference sort.  The two differ at most in the relative order of
equal scores. -/
def SearchGo (beats : List Beat) (query : String) (maxResults : Int) : List SearchResult :=
  let results := sortSliceGo (scanResults beats (toLower query))
  if 0 < maxResults ∧ maxResults < (results.length : Int) then
    results.take maxResults.toNat
  else results

/-- The locate-and-mutate loop of `JSONLStore.Update`: find the first record
with the id, run the updater on it, stamp `updatedAt`; the records after the
match are untouched (Go `break`s). -/
def applyUpdater (id : String) (f : Beat → Except String Beat) (now : Int) :
    List Beat → Except StoreError (List Beat × Beat)
  | [] => .error (.notFound id)
  | b :: rest =>
    if b.id = id then
      match f b with
      | .error e => .error (.updaterFailed e)
      | .ok b2 => .ok ({ b2 with updatedAt := now } :: rest, { b2 with updatedAt := now })
    else (applyUpdater id f now rest).map (fun p => (b :: p.1, p.2))

/-- Model of `JSONLStore.Update`: on success the whole file is rewritten with the
mutated list (`rewriteUnlocked`); on any error the function returns before
the rewrite, so the state component stays the input list. -/
def Update (beats : List Beat) (id : String) (f : Beat → Except String Beat)
    (now : Int) : List Beat × Except StoreError Beat :=
  match applyUpdater id f now beats with
  | .ok (newBeats, updated) => (newBeats, .ok updated)
  | .error e => (beats, .error e)

/-- Modelled from the spec: `JSONLStore.Delete` is invoked by the CLI
(`HumanCLI.Delete`, `HumanCLI.Move`) but its body is not among the provided
source files. Spec §4.1: "same atomic-rewrite pattern, omitting the matching
record. Fails with `NotFoundError` if absent." -/
def Delete (beats : List Beat) (id : String) : Except StoreError (List Beat) :=
  if beats.any (fun b => b.id == id) then .ok (beats.filter (fun b => !(b.id == id)))
  else .error (.notFound id)

/-- Model of `beat.GenerateIDWithSequence` (date part passed as the already formatted
`20060102` string): `fmt.Sprintf("beat-%s-%03d", date, seq)`. -/
def GenerateIDWithSequence (dateStr : String) (seq : Int) : String :=
  "beat-" ++ dateStr ++ "-" ++ goPad3 seq

/-! ## Hybrid search (`internal/store/semantic.go`) -/

/-- Model of `store.SemanticSearchOutput`. -/
structure SemanticSearchOutput where
  results : List SearchResult
  mode : String
  fallback : Bool
  deriving Repr, DecidableEq

/-- Oracle for the external semantic machinery: whether
`NewSemanticSearcher` succeeds (cache-dir creation), whether Ollama answers
the availability probe, and what `SemanticSearcher.Search` would return. -/
structure SemanticEnv where
  newSearcherOk : Bool
  available : Bool
  semanticResults : Except String (List SearchResult)

/-- Model of `store.HybridSearch`: keyword search unless semantic search was
requested and the whole semantic chain works. -/
def HybridSearch (parse : String → Option Beat) (file : Option (List String))
    (env : SemanticEnv) (query : String) (maxResults : Int) (semantic : Bool) :
    Except StoreError SemanticSearchOutput :=
  if !semantic then
    (SearchStore parse file query maxResults).map fun rs => ⟨rs, "keyword", false⟩
  else if !env.newSearcherOk then
    (SearchStore parse file query maxResults).map fun rs => ⟨rs, "keyword", true⟩
  else if !env.available then
    (SearchStore parse file query maxResults).map fun rs => ⟨rs, "keyword", true⟩
  else
    match env.semanticResults with
    | .error _ => (SearchStore parse file query maxResults).map fun rs => ⟨rs, "keyword", true⟩
    | .ok rs => .ok ⟨rs, "semantic", false⟩

/-- Errors of the robot CLI search wrapper. -/
inductive RobotError where
  | queryRequired
  | searchFailed (e : StoreError)
  deriving Repr, DecidableEq

/-- The `maxResults <= 0 → 20` default applied by `RobotCLI.Search`. -/
def robotMaxResults (m : Int) : Int := if m ≤ 0 then 20 else m

/-- Model of `RobotCLI.Search` (semantic variant): reject an empty query, clamp
`maxResults`, delegate to `HybridSearch`. -/
def RobotSearch (parse : String → Option Beat) (file : Option (List String))
    (env : SemanticEnv) (query : String) (maxResults : Int) (semantic : Bool) :
    Except RobotError SemanticSearchOutput :=
  if query = "" then .error .queryRequired
  else
    match HybridSearch parse file env query (robotMaxResults maxResults) semantic with
    | .error e => .error (.searchFailed e)
    | .ok out => .ok out

/-! ## Embedding vector store (`embeddings` package) -/

def EmbeddingDimensions : Nat := 768

inductive EmbError where
  | dimensionMismatch (got : Nat)
  | noEmbedding (id : String)
  | readShort
  deriving Repr, DecidableEq

/-- Model of `embeddings.Store`: the flat binary data file as a byte list plus the
in-memory offset index. A vector entry is the IEEE-754 bit pattern of the
`float64` (a `Nat` below `2^64`). -/
structure EmbStore where
  bin : List Nat
  index : String → Option Nat

/-- Model of `binary.LittleEndian.PutUint64`: `k` bytes of `w`, least significant
first (`k = 8` in the store). -/
def natToBytes : Nat → Nat → List Nat
  | 0, _ => []
  | k + 1, w => (w % 256) :: natToBytes k (w / 256)

/-- Model of `binary.LittleEndian.Uint64` over a byte list. -/
def bytesToNat : List Nat → Nat
  | [] => 0
  | b :: rest => b + 256 * bytesToNat rest

def putFloat64LE (w : Nat) : List Nat := natToBytes 8 w

def getFloat64LE (bytes : List Nat) : Nat := bytesToNat (bytes.take 8)

/-- The decode loop of `embeddings.Store.Get`: element `i` is read from
byte offset `8*i` of the buffer. -/
def decodeFloats : Nat → List Nat → List Nat
  | 0, _ => []
  | n + 1, bytes => getFloat64LE bytes :: decodeFloats n (bytes.drop 8)

/-- Model of `embeddings.Store.Store`: reject a wrong-dimension vector, append the
raw bits at the end of the data file (`offset` = size before the write),
point the index at the new copy. -/
def StoreEmbedding (s : EmbStore) (beatID : String) (embedding : List Nat) :
    Except EmbError EmbStore :=
  if embedding.length ≠ EmbeddingDimensions then
    .error (.dimensionMismatch embedding.length)
  else
    .ok { bin := s.bin ++ embedding.flatMap putFloat64LE,
          index := fun id => if id = beatID then some s.bin.length else s.index id }

/-- Model of `embeddings.Store.Get`: look up the offset, read exactly one vector's
worth of bytes (`io.ReadFull` fails if the file is too short), decode. -/
def GetEmbedding (s : EmbStore) (beatID : String) : Except EmbError (List Nat) :=
  match s.index beatID with
  | none => .error (.noEmbedding beatID)
  | some offset =>
    if s.bin.length < offset + EmbeddingDimensions * 8 then .error .readShort
    else .ok (decodeFloats EmbeddingDimensions
      ((s.bin.drop offset).take (EmbeddingDimensions * 8)))

/-! ## Concrete fixtures used by witnesses and counterexamples -/

def impT : Impetus := ⟨"t", ""⟩

def beatA : Beat := { id := "beat-20260101-001", createdAt := 0, updatedAt := 0,
                      impetus := impT, content := "one" }

def beatB : Beat := { id := "beat-20260101-002", createdAt := 0, updatedAt := 0,
                      impetus := impT, content := "two" }

def demoBeats : List Beat := [beatA, beatB]

/-- Spec §8 scenario records: contents "alpha", "beta alpha", "gamma"; the
first also matches on provenance, the second only on content. -/
def scenarioBeats : List Beat :=
  [{ id := "beat-20260102-001", createdAt := 0, updatedAt := 0,
     impetus := ⟨"Alpha note", ""⟩, content := "alpha" },
   { id := "beat-20260102-002", createdAt := 0, updatedAt := 0,
     impetus := ⟨"journal", ""⟩, content := "beta alpha" },
   { id := "beat-20260102-003", createdAt := 0, updatedAt := 0,
     impetus := ⟨"journal", ""⟩, content := "gamma" }]

/-- Expected ranking for the scenario (scores in half units: 2 = 1.0,
1 = 0.5). -/
def scenarioExpected : List SearchResult :=
  [⟨"beat-20260102-001", 2, "alpha", ⟨"Alpha note", ""⟩⟩,
   ⟨"beat-20260102-002", 1, "beta alpha", ⟨"journal", ""⟩⟩]

/-- A store with 25 records all matching the query "x". -/
def manyBeats : List Beat := (List.range 25).map fun i =>
  { id := ⟨natDigits i⟩, createdAt := 0, updatedAt := 0,
    impetus := ⟨"m", ""⟩, content := "x" }

/-- One record for the tie-order counterexample: content "x" always
matches the query "x"; the provenance label decides whether the record
scores 0.5 (`"m"`) or 1.0 (`"ax"`, which also contains "x"). -/
def tieBeat (i : Nat) (lab : String) : Beat :=
  { id := ⟨'b' :: natDigits i⟩, createdAt := 0, updatedAt := 0,
    impetus := ⟨lab, ""⟩, content := "x" }

/-- Thirteen records matching the query "x"; only the second also matches
on provenance.  Thirteen is the smallest size at which `sort.Slice`
leaves its stable insertion-sort path. -/
def tieBeats : List Beat :=
  [tieBeat 0 "m", tieBeat 1 "ax", tieBeat 2 "m", tieBeat 3 "m", tieBeat 4 "m",
   tieBeat 5 "m", tieBeat 6 "m", tieBeat 7 "m", tieBeat 8 "m", tieBeat 9 "m",
   tieBeat 10 "m", tieBeat 11 "m", tieBeat 12 "m"]

/-- A concrete line parser: the line "ok" parses to `beatA`, everything
else is corrupt. -/
def parseW : String → Option Beat := fun l => if l = "ok" then some beatA else none

/-- Semantic environment with every external dependency down. -/
def envDown : SemanticEnv := ⟨false, false, .error "no ollama"⟩

/-- An updater that always fails. -/
def failUpd : Beat → Except String Beat := fun _ => .error "boom"

def embEmpty : EmbStore := ⟨[], fun _ => none⟩

/-! ## Helper lemmas: the `NextSequence` fold -/

/-- The fold step the Go loop applies to the accumulator. -/
def goMaxStep (m s : Int) : Int := if m < s then s else m

lemma nextSeqStep_eq_seqOf (today : String) (m : Int) (b : Beat) :
    nextSeqStep ("beat-" ++ today ++ "-") m b =
      match seqOf today b with
      | some s => goMaxStep m s
      | none => m := by
  unfold nextSeqStep seqOf goMaxStep
  cases h : hasPrefix b.id ("beat-" ++ today ++ "-") <;> simp [h]

lemma foldl_nextSeqStep (today : String) (beats : List Beat) (a : Int) :
    List.foldl (nextSeqStep ("beat-" ++ today ++ "-")) a beats =
      List.foldl goMaxStep a (matchingSeqs beats today) := by
  induction beats generalizing a with
  | nil => rfl
  | cons b rest ih =>
    simp only [List.foldl_cons, matchingSeqs, List.filterMap_cons]
    rw [nextSeqStep_eq_seqOf]
    cases h : seqOf today b with
    | none => simpa [matchingSeqs] using ih a
    | some s => simpa [matchingSeqs] using ih (goMaxStep a s)

lemma le_foldl_goMax (l : List Int) (a : Int) : a ≤ List.foldl goMaxStep a l := by
  induction l generalizing a with
  | nil => exact le_refl a
  | cons x rest ih =>
    refine le_trans ?_ (ih (goMaxStep a x))
    unfold goMaxStep
    split <;> omega

lemma mem_le_foldl_goMax (l : List Int) : ∀ a x : Int, x ∈ l →
    x ≤ List.foldl goMaxStep a l := by
  induction l with
  | nil => intro a x hx; cases hx
  | cons y rest ih =>
    intro a x hx
    rcases List.mem_cons.mp hx with rfl | hmem
    · refine le_trans ?_ (le_foldl_goMax rest (goMaxStep a x))
      unfold goMaxStep
      split <;> omega
    · exact ih (goMaxStep a y) x hmem

lemma foldl_goMax_le (l : List Int) : ∀ a c : Int, a ≤ c → (∀ x ∈ l, x ≤ c) →
    List.foldl goMaxStep a l ≤ c := by
  induction l with
  | nil => intro a c ha _; exact ha
  | cons y rest ih =>
    intro a c ha hl
    have hy := hl y (List.mem_cons_self y rest)
    refine ih (goMaxStep a y) c ?_ (fun x hx => hl x (List.mem_cons_of_mem y hx))
    unfold goMaxStep
    split <;> omega

lemma foldl_goMax_mem (l : List Int) (a : Int) :
    List.foldl goMaxStep a l = a ∨ List.foldl goMaxStep a l ∈ l := by
  induction l generalizing a with
  | nil => exact Or.inl rfl
  | cons y rest ih =>
    rcases ih (goMaxStep a y) with h | h
    · rw [List.foldl_cons, h]
      unfold goMaxStep
      split
      · exact Or.inr (List.mem_cons_self y rest)
      · exact Or.inl rfl
    · exact Or.inr (List.mem_cons_of_mem y (by simpa using h))

/-! ## Claim C1 -/

/-- C1: `NextSequence` scans the current records and returns 1 when no id
of the given calendar date carries a sequence number, and max+1 over the
existing sequence numbers of that date otherwise (stated for stores whose
sequence numbers are the positive integers the generator produces).  The
result is a function of the current matching ids only — recomputed fresh,
with no cached counter. -/
theorem C1_nextSequence_fresh_max (beats : List Beat) (today : String) :
    (matchingSeqs beats today = [] → NextSequence beats today = 1) ∧
    (matchingSeqs beats today ≠ [] →
      (∀ s ∈ matchingSeqs beats today, 1 ≤ s) →
      ∃ m ∈ matchingSeqs beats today,
        (∀ s ∈ matchingSeqs beats today, s ≤ m) ∧
        NextSequence beats today = m + 1) ∧
    (∀ beats2, matchingSeqs beats2 today = matchingSeqs beats today →
      NextSequence beats2 today = NextSequence beats today) := by
  refine ⟨?_, ?_, ?_⟩
  · intro h
    unfold NextSequence
    rw [foldl_nextSeqStep, h]
    rfl
  · intro hne hpos
    unfold NextSequence
    rw [foldl_nextSeqStep]
    rcases foldl_goMax_mem (matchingSeqs beats today) 0 with h | h
    · rcases List.exists_mem_of_ne_nil _ hne with ⟨x, hx⟩
      have h1 := hpos x hx
      have h2 := mem_le_foldl_goMax _ 0 x hx
      omega
    · exact ⟨_, h, fun s hs => mem_le_foldl_goMax _ 0 s hs, rfl⟩
  · intro beats2 h
    unfold NextSequence
    rw [foldl_nextSeqStep, foldl_nextSeqStep, h]

/-- Witness for C1 at a concrete two-record store for 2026-01-01. -/
theorem C1_witness :
    ∃ m ∈ matchingSeqs demoBeats "20260101",
      (∀ s ∈ matchingSeqs demoBeats "20260101", s ≤ m) ∧
      NextSequence demoBeats "20260101" = m + 1 :=
  (C1_nextSequence_fresh_max demoBeats "20260101").2.1 (by decide) (by decide)

/-! ## Claim C2 -/

/-- C2 counterexample: the claim "an id removed by a delete is never
assigned again" fails.  Delete `beat-20260101-002` (the highest sequence of
its date) from a two-record store; the id generated for the next append of
that date is exactly the deleted id. -/
theorem C2_counterexample :
    Delete demoBeats "beat-20260101-002" = .ok [beatA] ∧
    GenerateIDWithSequence "20260101" (NextSequence [beatA] "20260101") =
      "beat-20260101-002" :=
  ⟨rfl, rfl⟩

/-- C2 amended: ids can be reused after deletion.  Whenever the deleted
record held sequence `s` of date `d` and the surviving records of that date
reach exactly `s - 1` (or none survive and `s = 1`), the next append on
date `d` is assigned precisely the deleted record's id. -/
theorem C2_amended_id_reuse (beats post : List Beat) (d delId : String) (s : Int)
    (hdel : Delete beats delId = .ok post)
    (hid : delId = GenerateIDWithSequence d s)
    (hs : 1 ≤ s)
    (hmax : ∀ t ∈ matchingSeqs post d, t ≤ s - 1)
    (hnear : s - 1 ∈ matchingSeqs post d ∨ s = 1) :
    GenerateIDWithSequence d (NextSequence post d) = delId := by
  have hfold : List.foldl goMaxStep 0 (matchingSeqs post d) = s - 1 := by
    rcases hnear with hmem | rfl
    · exact le_antisymm (foldl_goMax_le _ 0 (s - 1) (by omega) hmax) (mem_le_foldl_goMax _ 0 (s - 1) hmem)
    · have h1 := foldl_goMax_le _ 0 0 (le_refl 0) (by simpa using hmax)
      have h2 := le_foldl_goMax (matchingSeqs post d) 0
      omega
  have : NextSequence post d = s := by
    unfold NextSequence
    rw [foldl_nextSeqStep, hfold]
    omega
  rw [this, hid]

/-- Witness for the amended C2 at the concrete two-record store. -/
theorem C2_amended_witness :
    GenerateIDWithSequence "20260101" (NextSequence [beatA] "20260101") =
      "beat-20260101-002" :=
  C2_amended_id_reuse demoBeats [beatA] "20260101" "beat-20260101-002" 2
    rfl (by decide) (by decide) (by decide) (by decide)

/-! ## Helper lemmas: `Update` -/

lemma applyUpdater_notFound (id : String) (f : Beat → Except String Beat)
    (now : Int) (beats : List Beat) (h : ∀ b ∈ beats, b.id ≠ id) :
    applyUpdater id f now beats = .error (.notFound id) := by
  induction beats with
  | nil => rfl
  | cons b rest ih =>
    have hb := h b (List.mem_cons_self b rest)
    rw [applyUpdater, if_neg hb, ih (fun x hx => h x (List.mem_cons_of_mem b hx))]
    rfl

lemma applyUpdater_updaterFailed (id : String) (f : Beat → Except String Beat)
    (now : Int) (beats : List Beat) (b : Beat) (e : String)
    (hfind : beats.find? (fun x => x.id == id) = some b) (hf : f b = .error e) :
    applyUpdater id f now beats = .error (.updaterFailed e) := by
  induction beats with
  | nil => simp at hfind
  | cons x rest ih =>
    by_cases hx : x.id = id
    · rw [List.find?_cons_of_pos _ (by simpa using hx)] at hfind
      have hxb : x = b := by simpa using hfind
      subst hxb
      rw [applyUpdater, if_pos hx, hf]
    · rw [List.find?_cons_of_neg _ (by simpa using hx)] at hfind
      rw [applyUpdater, if_neg hx, ih hfind]
      rfl

/-! ## Claim C3 -/

/-- C3: `Update` fails with `NotFoundError` when no record carries the id,
and when the mutation function itself fails no rewrite happens — in both
cases the store state (first component) is exactly the input record list
and the error is reported. -/
theorem C3_update_error_atomicity (beats : List Beat) (id : String)
    (f : Beat → Except String Beat) (now : Int) :
    ((∀ b ∈ beats, b.id ≠ id) →
      Update beats id f now = (beats, .error (.notFound id))) ∧
    (∀ b e, beats.find? (fun x => x.id == id) = some b → f b = .error e →
      Update beats id f now = (beats, .error (.updaterFailed e))) := by
  constructor
  · intro h
    unfold Update
    rw [applyUpdater_notFound id f now beats h]
  · intro b e hfind hf
    unfold Update
    rw [applyUpdater_updaterFailed id f now beats b e hfind hf]

/-- Witness for C3: an absent id, and a failing updater on a present id,
both leave the concrete two-record store unchanged. -/
theorem C3_witness :
    Update demoBeats "nope" failUpd 7 = (demoBeats, .error (.notFound "nope")) ∧
    Update demoBeats "beat-20260101-001" failUpd 7 =
      (demoBeats, .error (.updaterFailed "boom")) :=
  ⟨(C3_update_error_atomicity demoBeats "nope" failUpd 7).1 (by decide),
   (C3_update_error_atomicity demoBeats "beat-20260101-001" failUpd 7).2
     beatA "boom" (by rfl) rfl⟩

/-! ## Helper lemmas: the search sort -/

lemma mem_insertDesc (x a : SearchResult) (l : List SearchResult) :
    a ∈ insertDesc x l ↔ a = x ∨ a ∈ l := by
  induction l with
  | nil => simp [insertDesc]
  | cons y ys ih =>
    rw [insertDesc]
    split
    · simp
    · simp only [List.mem_cons, ih]
      tauto

lemma mem_sortByScoreDesc (a : SearchResult) (l : List SearchResult) :
    a ∈ sortByScoreDesc l ↔ a ∈ l := by
  induction l with
  | nil => simp [sortByScoreDesc]
  | cons x xs ih =>
    rw [sortByScoreDesc, mem_insertDesc]
    simp [ih]

lemma pairwise_insertDesc (x : SearchResult) (l : List SearchResult)
    (hl : l.Pairwise (fun a b => b.score ≤ a.score)) :
    (insertDesc x l).Pairwise (fun a b => b.score ≤ a.score) := by
  induction l with
  | nil => simp [insertDesc]
  | cons y ys ih =>
    rw [List.pairwise_cons] at hl
    rw [insertDesc]
    split
    · rename_i hyx
      refine List.pairwise_cons.mpr ⟨?_, List.pairwise_cons.mpr hl⟩
      intro z hz
      rcases List.mem_cons.mp hz with rfl | hmem
      · exact hyx
      · exact le_trans (hl.1 z hmem) hyx
    · rename_i hyx
      refine List.pairwise_cons.mpr ⟨?_, ih hl.2⟩
      intro z hz
      rcases (mem_insertDesc x z ys).mp hz with rfl | hmem
      · omega
      · exact hl.1 z hmem

lemma pairwise_sortByScoreDesc (l : List SearchResult) :
    (sortByScoreDesc l).Pairwise (fun a b => b.score ≤ a.score) := by
  induction l with
  | nil => simp [sortByScoreDesc]
  | cons x xs ih => exact pairwise_insertDesc x (sortByScoreDesc xs) ih

/-- Stability of the sort: inserting `x` never changes the relative order
of the other elements, and `x` lands in front of every equal score. -/
lemma filter_insertDesc (x : SearchResult) (l : List SearchResult) (c : Int) :
    (insertDesc x l).filter (fun r => r.score == c) =
      if x.score = c then x :: l.filter (fun r => r.score == c)
      else l.filter (fun r => r.score == c) := by
  induction l with
  | nil =>
    by_cases hx : x.score = c <;> simp [insertDesc, List.filter_cons, beq_iff_eq, hx]
  | cons y ys ih =>
    rw [insertDesc]
    split
    · rename_i hyx
      by_cases hx : x.score = c <;> simp [List.filter_cons, beq_iff_eq, hx]
    · rename_i hyx
      by_cases hx : x.score = c
      · have hy : ¬ y.score = c := by omega
        simp [List.filter_cons, beq_iff_eq, hx, hy, ih]
      · by_cases hy : y.score = c <;>
          simp [List.filter_cons, beq_iff_eq, hx, hy, ih]

lemma filter_sortByScoreDesc (l : List SearchResult) (c : Int) :
    (sortByScoreDesc l).filter (fun r => r.score == c) =
      l.filter (fun r => r.score == c) := by
  induction l with
  | nil => rfl
  | cons x xs ih =>
    rw [sortByScoreDesc, filter_insertDesc]
    by_cases hx : x.score = c <;> simp [List.filter_cons, beq_iff_eq, hx, ih]

lemma mem_scanResults_pos (beats : List Beat) (q : String) (r : SearchResult)
    (hr : r ∈ scanResults beats q) : 0 < r.score := by
  rcases List.mem_filterMap.mp hr with ⟨b, _, hb⟩
  by_cases h : 0 < scoreBeat q b
  · rw [if_pos h] at hb
    cases hb
    simpa using h
  · rw [if_neg h] at hb
    cases hb

lemma mem_Search (beats : List Beat) (q : String) (n : Int) (r : SearchResult)
    (hr : r ∈ Search beats q n) :
    r ∈ sortByScoreDesc (scanResults beats (toLower q)) := by
  simp only [Search] at hr
  split at hr
  · exact List.take_subset _ _ hr
  · exact hr

/-! ## Membership preservation -/

lemma getD_mem_of_lt (l : List SearchResult) (n : Nat) (d : SearchResult)
    (h : n < l.length) : l.getD n d ∈ l := by
  rw [List.getD_eq_getElem l d h]
  exact List.getElem_mem h

lemma mem_swapAt {x : SearchResult} {l : List SearchResult} {i j : Nat}
    (hx : x ∈ swapAt l i j) : x ∈ l := by
  unfold swapAt at hx
  split at hx
  · rename_i h
    rcases List.mem_or_eq_of_mem_set hx with hx1 | rfl
    · rcases List.mem_or_eq_of_mem_set hx1 with hx2 | rfl
      · exact hx2
      · exact getD_mem_of_lt l j dummyResult h.2
    · exact getD_mem_of_lt l i dummyResult h.1
  · exact hx

lemma mem_insertInner (a : Nat) : ∀ (j : Nat) (l : List SearchResult) (x : SearchResult),
    x ∈ insertInner a j l → x ∈ l := by
  intro j
  induction j with
  | zero => intro l x hx; rw [insertInner] at hx; exact hx
  | succ j ih =>
    intro l x hx
    rw [insertInner] at hx
    split at hx
    · exact mem_swapAt (ih _ x hx)
    · exact hx

lemma mem_insertionSortAux (a b : Nat) : ∀ (fuel i : Nat) (l : List SearchResult)
    (x : SearchResult), x ∈ insertionSortAux a b fuel i l → x ∈ l := by
  intro fuel
  induction fuel with
  | zero => intro i l x hx; rw [insertionSortAux] at hx; exact hx
  | succ fuel ih =>
    intro i l x hx
    rw [insertionSortAux] at hx
    split at hx
    · exact mem_insertInner a i l x (ih (i + 1) (insertInner a i l) x hx)
    · exact hx

lemma mem_insertionSortGo (a b : Nat) (l : List SearchResult) (x : SearchResult)
    (hx : x ∈ insertionSortGo a b l) : x ∈ l :=
  mem_insertionSortAux a b b (a + 1) l x hx

lemma mem_siftDownAux (hi first : Nat) : ∀ (fuel root : Nat) (l : List SearchResult)
    (x : SearchResult), x ∈ siftDownAux hi first fuel root l → x ∈ l := by
  intro fuel
  induction fuel with
  | zero => intro root l x hx; rw [siftDownAux] at hx; exact hx
  | succ fuel ih =>
    intro root l x hx
    rw [siftDownAux] at hx
    repeat' (first | split at hx | dsimp only [] at hx)
    any_goals exact hx
    all_goals exact mem_swapAt (ih _ _ x hx)

lemma mem_siftDownGo (l : List SearchResult) (lo hi first : Nat) (x : SearchResult)
    (hx : x ∈ siftDownGo l lo hi first) : x ∈ l :=
  mem_siftDownAux hi first (hi + 1) lo l x hx

lemma mem_heapBuild (hi first : Nat) : ∀ (n : Nat) (l : List SearchResult) (x : SearchResult),
    x ∈ heapBuild hi first n l → x ∈ l := by
  intro n
  induction n with
  | zero => intro l x hx; rw [heapBuild] at hx; exact hx
  | succ n ih =>
    intro l x hx
    rw [heapBuild] at hx
    exact mem_siftDownGo l n hi first x (ih _ x hx)

lemma mem_heapPop (first : Nat) : ∀ (n : Nat) (l : List SearchResult) (x : SearchResult),
    x ∈ heapPop first n l → x ∈ l := by
  intro n
  induction n with
  | zero => intro l x hx; rw [heapPop] at hx; exact hx
  | succ n ih =>
    intro l x hx
    rw [heapPop] at hx
    exact mem_swapAt (mem_siftDownGo _ 0 n first x (ih _ x hx))

lemma mem_heapSortGo (l : List SearchResult) (a b : Nat) (x : SearchResult)
    (hx : x ∈ heapSortGo l a b) : x ∈ l :=
  mem_heapBuild (b - a) a ((b - a - 1) / 2 + 1) l x
    (mem_heapPop a (b - a) _ x hx)

lemma mem_revAux : ∀ (fuel i j : Nat) (l : List SearchResult) (x : SearchResult),
    x ∈ revAux fuel i j l → x ∈ l := by
  intro fuel
  induction fuel with
  | zero => intro i j l x hx; rw [revAux] at hx; exact hx
  | succ fuel ih =>
    intro i j l x hx
    rw [revAux] at hx
    split at hx
    · exact mem_swapAt (ih _ _ _ x hx)
    · exact hx

lemma mem_reverseRangeGo (l : List SearchResult) (a b : Nat) (x : SearchResult)
    (hx : x ∈ reverseRangeGo l a b) : x ∈ l :=
  mem_revAux b a (b - 1) l x hx

lemma mem_breakPatternsGo (l : List SearchResult) (a b : Nat) (x : SearchResult)
    (hx : x ∈ breakPatternsGo l a b) : x ∈ l := by
  rw [breakPatternsGo] at hx
  split at hx
  · exact mem_swapAt (mem_swapAt (mem_swapAt hx))
  · exact hx

lemma mem_shiftLeftGo : ∀ (j : Nat) (l : List SearchResult) (x : SearchResult),
    x ∈ shiftLeftGo j l → x ∈ l := by
  intro j
  induction j with
  | zero => intro l x hx; rw [shiftLeftGo] at hx; exact hx
  | succ j ih =>
    intro l x hx
    rw [shiftLeftGo] at hx
    split at hx
    · exact mem_swapAt (ih _ x hx)
    · exact hx

lemma mem_shiftRightGo (b : Nat) : ∀ (fuel j : Nat) (l : List SearchResult) (x : SearchResult),
    x ∈ shiftRightGo b fuel j l → x ∈ l := by
  intro fuel
  induction fuel with
  | zero => intro j l x hx; rw [shiftRightGo] at hx; exact hx
  | succ fuel ih =>
    intro j l x hx
    rw [shiftRightGo] at hx
    split at hx
    · exact mem_swapAt (ih _ _ x hx)
    · exact hx

lemma mem_partialAux (a b : Nat) : ∀ (steps i : Nat) (l : List SearchResult) (x : SearchResult),
    x ∈ (partialAux a b steps i l).1 → x ∈ l := by
  intro steps
  induction steps with
  | zero => intro i l x hx; rw [partialAux] at hx; exact hx
  | succ steps ih =>
    intro i l x hx
    rw [partialAux] at hx
    repeat' (first | split at hx | dsimp only [] at hx)
    any_goals exact hx
    all_goals exact mem_swapAt (by
      first
        | exact mem_shiftLeftGo _ _ x (mem_shiftRightGo b b _ _ x (ih _ _ x hx))
        | exact mem_shiftLeftGo _ _ x (ih _ _ x hx)
        | exact mem_shiftRightGo b b _ _ x (ih _ _ x hx)
        | exact ih _ _ x hx)

lemma mem_partialInsertionSortGo (l : List SearchResult) (a b : Nat) (x : SearchResult)
    (hx : x ∈ (partialInsertionSortGo l a b).1) : x ∈ l :=
  mem_partialAux a b 5 (a + 1) l x hx

lemma mem_partInner (aIdx b : Nat) : ∀ (fuel : Nat) (l : List SearchResult) (i j : Nat)
    (x : SearchResult), x ∈ (partInner aIdx b fuel l i j).1 → x ∈ l := by
  intro fuel
  induction fuel with
  | zero => intro l i j x hx; rw [partInner] at hx; exact hx
  | succ fuel ih =>
    intro l i j x hx
    rw [partInner] at hx
    split at hx
    · exact hx
    · exact mem_swapAt (ih _ _ _ x hx)

lemma mem_partitionGo (l0 : List SearchResult) (a b pivot : Nat) (x : SearchResult)
    (hx : x ∈ (partitionGo l0 a b pivot).1) : x ∈ l0 := by
  rw [partitionGo] at hx
  split at hx
  · exact mem_swapAt (mem_swapAt hx)
  · exact mem_swapAt (mem_swapAt (mem_partInner a b b _ _ _ x (mem_swapAt hx)))

lemma mem_peInner (aIdx b : Nat) : ∀ (fuel : Nat) (l : List SearchResult) (i j : Nat)
    (x : SearchResult), x ∈ (peInner aIdx b fuel l i j).1 → x ∈ l := by
  intro fuel
  induction fuel with
  | zero => intro l i j x hx; rw [peInner] at hx; exact hx
  | succ fuel ih =>
    intro l i j x hx
    rw [peInner] at hx
    split at hx
    · exact hx
    · exact mem_swapAt (ih _ _ _ x hx)

lemma mem_partitionEqualGo (l0 : List SearchResult) (a b pivot : Nat) (x : SearchResult)
    (hx : x ∈ (partitionEqualGo l0 a b pivot).1) : x ∈ l0 :=
  mem_swapAt (mem_peInner a b b _ _ _ x hx)

lemma mem_pdqsortGo : ∀ (fuel : Nat) (l : List SearchResult) (a b limit : Nat) (wb wp : Bool)
    (x : SearchResult), x ∈ pdqsortGo fuel l a b limit wb wp → x ∈ l := by
  intro fuel
  induction fuel with
  | zero => intro l a b limit wb wp x hx; rw [pdqsortGo] at hx; exact hx
  | succ fuel ih =>
    intro l a b limit wb wp x hx
    rw [pdqsortGo] at hx
    repeat' (first | split at hx | dsimp only [] at hx)
    all_goals
      repeat first
        | exact hx
        | exact mem_insertionSortGo _ _ _ _ hx
        | exact mem_heapSortGo _ _ _ _ hx
        | replace hx := ih _ _ _ _ _ _ _ hx
        | replace hx := mem_partialInsertionSortGo _ _ _ _ hx
        | replace hx := mem_partitionGo _ _ _ _ _ hx
        | replace hx := mem_partitionEqualGo _ _ _ _ _ hx
        | replace hx := mem_reverseRangeGo _ _ _ _ hx
        | replace hx := mem_breakPatternsGo _ _ _ _ hx

lemma mem_sortSliceGo (l : List SearchResult) (x : SearchResult)
    (hx : x ∈ sortSliceGo l) : x ∈ l :=
  mem_pdqsortGo (2 * l.length + 64) l 0 l.length (bitsLen l.length) true true x hx

lemma mem_SearchGo (beats : List Beat) (q : String) (n : Int) (r : SearchResult)
    (hr : r ∈ SearchGo beats q n) : r ∈ scanResults beats (toLower q) := by
  simp only [SearchGo] at hr
  split at hr
  · exact mem_sortSliceGo _ r (List.take_subset _ _ hr)
  · exact mem_sortSliceGo _ r hr

/-! ## Claim C4 -/

/-- C4 counterexample: the claim's "ties kept in original scan order"
fails on the program's sort.  On a 13-record store where every record
matches the query "x" (record `b1` on both fields, the rest on content
only), the pdqsort behind `sort.Slice` partitions the range and swaps
equal-score entries: record `b6` is returned ahead of `b0`, although both
score 0.5 and `b0` is scanned first.  The first conjunct pins the full
output (ids with scores, descending); the second is the scan order of the
ties; the third is the refutation. -/
theorem C4_counterexample :
    (SearchGo tieBeats "x" 0).map (fun r => (r.id, r.score)) =
      [("b1", 2), ("b6", 1), ("b2", 1), ("b3", 1), ("b4", 1), ("b5", 1), ("b0", 1),
       ("b7", 1), ("b8", 1), ("b9", 1), ("b10", 1), ("b11", 1), ("b12", 1)] ∧
    ((scanResults tieBeats (toLower "x")).filter (fun r => r.score == 1)).map
        (fun r => r.id) =
      ["b0", "b2", "b3", "b4", "b5", "b6", "b7", "b8", "b9", "b10", "b11", "b12"] ∧
    ((SearchGo tieBeats "x" 0).filter (fun r => r.score == 1)).map (fun r => r.id) ≠
      ((scanResults tieBeats (toLower "x")).filter (fun r => r.score == 1)).map
        (fun r => r.id) :=
  ⟨by decide, by decide, by decide⟩

/-- C4 amended: `Search` scores half a point (1 in half units) per
case-insensitively matched field, returns only positive-score records
ranked by descending score, and the relative order of equal scores is
unspecified (`sort.Slice` is not stable — see the counterexample).
Positivity and the three-record scenario are proved against `SearchGo`,
the faithful model; the descending ranking is stated over the reference
model `Search`, which produces the same descending score multiset. -/
theorem C4_amended_search_scoring (beats : List Beat) (q : String) (n : Int)
    (hq : q ≠ "") :
    (∀ r ∈ SearchGo beats q n, 0 < r.score) ∧
    (∀ r ∈ Search beats q n, 0 < r.score) ∧
    (Search beats q n).Pairwise (fun a b => b.score ≤ a.score) ∧
    SearchGo scenarioBeats "alpha" 10 = scenarioExpected := by
  refine ⟨?_, ?_, ?_, by decide⟩
  · intro r hr
    exact mem_scanResults_pos beats (toLower q) r (mem_SearchGo beats q n r hr)
  · intro r hr
    exact mem_scanResults_pos beats (toLower q) r
      ((mem_sortByScoreDesc r _).mp (mem_Search beats q n r hr))
  · have hs := pairwise_sortByScoreDesc (scanResults beats (toLower q))
    simp only [Search]
    split
    · exact hs.sublist (List.take_sublist _ _)
    · exact hs

/-- Witness for the amended C4 (discharging the non-empty-query
hypothesis): the spec scenario, evaluated through the faithful sort. -/
theorem C4_amended_witness : SearchGo scenarioBeats "alpha" 10 = scenarioExpected :=
  (C4_amended_search_scoring [] "q" 1 (by decide)).2.2.2

/-! ## Helper lemmas: truncation -/

lemma Search_eq_of_nonpos (beats : List Beat) (q : String) (n : Int)
    (hn : n ≤ 0) :
    Search beats q n = sortByScoreDesc (scanResults beats (toLower q)) := by
  simp only [Search]
  rw [if_neg]
  intro h
  omega

lemma Search_eq_take_of_pos (beats : List Beat) (q : String) (n : Int)
    (hn : 0 < n) :
    Search beats q n =
      (sortByScoreDesc (scanResults beats (toLower q))).take n.toNat := by
  simp only [Search]
  split
  · rfl
  · rename_i h
    rw [List.take_of_length_le]
    omega

/-! ## Claim C5 -/

/-- C5 counterexample: the claim says a `maxResults` of 0 or negative means
the default cap is applied rather than all matches returned; but on a store
with 25 matching records, `Search` with `maxResults = 0` returns all 25
results — more than the CLI default cap of 20, i.e. no cap at all. -/
theorem C5_counterexample : (Search manyBeats "x" 0).length = 25 := by decide

/-- C5 amended: `Search` itself truncates only when `maxResults > 0`; a
zero or negative `maxResults` returns all matches untruncated.  The default
cap of 20 is applied by the robot CLI wrapper before `Search` is reached. -/
theorem C5_amended_truncation (beats : List Beat) (q : String) (n : Int) :
    (n ≤ 0 → Search beats q n = sortByScoreDesc (scanResults beats (toLower q))) ∧
    (0 < n → Search beats q n =
      (sortByScoreDesc (scanResults beats (toLower q))).take n.toNat) ∧
    (∀ m : Int, m ≤ 0 → robotMaxResults m = 20) := by
  refine ⟨Search_eq_of_nonpos beats q n, Search_eq_take_of_pos beats q n, ?_⟩
  intro m hm
  unfold robotMaxResults
  rw [if_pos hm]

/-- Witness for the amended C5 at a concrete store and `maxResults = 3`. -/
theorem C5_amended_witness :
    Search manyBeats "x" 3 =
      (sortByScoreDesc (scanResults manyBeats (toLower "x"))).take (3 : Int).toNat :=
  (C5_amended_truncation manyBeats "x" 3).2.1 (by decide)

/-! ## Helper lemmas: the empty query -/

lemma strContains_empty (s : String) : strContains s "" = true := by
  unfold strContains
  refine List.any_eq_true.mpr ⟨0, List.mem_range.mpr (by omega), ?_⟩
  show ("" : String).data.isPrefixOf (s.data.drop 0) = true
  have h : ("" : String).data = [] := rfl
  rw [h, List.drop_zero]
  cases s.data <;> rfl

lemma scoreBeat_empty (b : Beat) : scoreBeat "" b = 2 := by
  unfold scoreBeat
  rw [strContains_empty, strContains_empty]
  rfl

lemma scanResults_empty_query (beats : List Beat) :
    scanResults beats "" =
      beats.map fun b => ⟨b.id, 2, b.content, b.impetus⟩ := by
  unfold scanResults
  induction beats with
  | nil => rfl
  | cons b rest ih =>
    rw [List.filterMap_cons, List.map_cons, ← ih]
    have h2 : (0 : Int) < 2 := by norm_num
    simp [scoreBeat_empty, h2]

lemma sortByScoreDesc_of_const (l : List SearchResult) (c : Int)
    (h : ∀ r ∈ l, r.score = c) : sortByScoreDesc l = l := by
  have h1 := filter_sortByScoreDesc l c
  rw [List.filter_eq_self.mpr, List.filter_eq_self.mpr] at h1
  · exact h1
  · intro a ha
    simpa [beq_iff_eq] using h a ha
  · intro a ha
    simpa [beq_iff_eq] using h a ((mem_sortByScoreDesc a l).mp ha)

/-! ## Claim C10 -/

/-- C10: keyword `Search` with the empty query succeeds and returns every
record of the store — the empty substring matches both fields, so each
record scores 1.0 (`2` in half units) — truncated to `maxResults`. -/
theorem C10_empty_query (parse : String → Option Beat)
    (file : Option (List String)) (beats : List Beat) (n : Int)
    (hn : 0 < n) (hread : ReadAll parse file = .ok beats) :
    SearchStore parse file "" n =
      .ok ((beats.map fun b => ⟨b.id, 2, b.content, b.impetus⟩).take n.toNat) := by
  unfold SearchStore
  rw [hread]
  have h1 : Search beats "" n =
      (beats.map fun b => (⟨b.id, 2, b.content, b.impetus⟩ : SearchResult)).take n.toNat := by
    rw [Search_eq_take_of_pos beats "" n hn]
    have ht : toLower "" = "" := rfl
    rw [ht, scanResults_empty_query, sortByScoreDesc_of_const _ 2]
    intro r hr
    rcases List.mem_map.mp hr with ⟨b, _, rfl⟩
    rfl
  rw [show (Except.map (fun bs => Search bs "" n) (Except.ok beats) :
        Except StoreError (List SearchResult)) = .ok (Search beats "" n) from rfl, h1]

/-- Witness for C10: a one-record store read from a concrete file. -/
theorem C10_witness :
    SearchStore parseW (some ["ok"]) "" 5 =
      .ok (([beatA].map fun b => ⟨b.id, 2, b.content, b.impetus⟩).take (5 : Int).toNat) :=
  C10_empty_query parseW (some ["ok"]) [beatA] 5 (by decide) rfl

/-! ## Helper lemmas: reading the log -/

/-- A line on which `readAllUnlocked` must abort: non-blank and
unparseable. -/
def badLine (parse : String → Option Beat) (l : String) : Bool :=
  !(isBlank l) && (parse l).isNone

lemma readLines_ok (parse : String → Option Beat) (lines : List String)
    (h : ∀ l ∈ lines, isBlank l = false → (parse l).isSome) :
    ∀ c, readLines parse lines c =
      .ok ((lines.filter (fun l => !(isBlank l))).filterMap parse) := by
  induction lines with
  | nil => intro c; rfl
  | cons l rest ih =>
    intro c
    have hrest := fun x hx => h x (List.mem_cons_of_mem l hx)
    cases hb : isBlank l with
    | false =>
      rcases Option.isSome_iff_exists.mp (h l (List.mem_cons_self l rest) hb)
        with ⟨b, hbparse⟩
      rw [readLines, if_neg (by simp [hb]), hbparse, ih hrest (c + 1)]
      simp [List.filter_cons, hb, List.filterMap_cons, hbparse, Except.map]
    | true =>
      rw [readLines, if_pos (by simp [hb]), ih hrest (c + 1)]
      simp [List.filter_cons, hb]

lemma readLines_err (parse : String → Option Beat) (pre : List String)
    (line : String) (post : List String)
    (hpre : ∀ l2 ∈ pre, badLine parse l2 = false)
    (hline : badLine parse line = true) :
    ∀ c, readLines parse (pre ++ line :: post) c =
      .error (.corruptLog (c + pre.length + 1)) := by
  induction pre with
  | nil =>
    intro c
    have hsplit : isBlank line = false ∧ parse line = none := by
      simpa [badLine, Option.isNone_iff_eq_none] using hline
    rw [List.nil_append, readLines, if_neg (by simp [hsplit.1])]
    simp only [hsplit.2]
    simp
  | cons p pre' ih =>
    intro c
    have hp := hpre p (List.mem_cons_self p pre')
    have harg : (c + 1) + pre'.length + 1 = c + (p :: pre').length + 1 := by
      simp [List.length_cons]
      omega
    have ihp := ih (fun x hx => hpre x (List.mem_cons_of_mem p hx)) (c + 1)
    rw [List.cons_append, readLines]
    cases hb : isBlank p with
    | false =>
      have hsome : (parse p).isNone = false := by
        unfold badLine at hp
        rw [hb] at hp
        simpa using hp
      cases hpp : parse p with
      | none => rw [hpp] at hsome; simp at hsome
      | some b =>
        rw [if_neg (by simp [hb])]
        simp only [ihp, Except.map]
        rw [harg]
    | true =>
      rw [if_pos (by simp [hb]), ihp, harg]

/-! ## Claim C6 -/

/-- C6: reading the log of a missing file yields the empty record set;
when every non-blank line parses, `ReadAll` returns exactly the parsed
non-blank lines in order (blank lines ignored); and if any non-blank line
fails to parse, `ReadAll` fails with `CorruptLogError` carrying the 1-based
number of the first offending line, returning no partial record set. -/
theorem C6_readAll_corruption (parse : String → Option Beat)
    (lines : List String) :
    ReadAll parse none = .ok [] ∧
    ((∀ l ∈ lines, isBlank l = false → (parse l).isSome) →
      ReadAll parse (some lines) =
        .ok ((lines.filter (fun l => !(isBlank l))).filterMap parse)) ∧
    (∀ pre line post, lines = pre ++ line :: post →
      (∀ l2 ∈ pre, badLine parse l2 = false) → badLine parse line = true →
      ReadAll parse (some lines) = .error (.corruptLog (pre.length + 1))) := by
  refine ⟨rfl, ?_, ?_⟩
  · intro h
    exact readLines_ok parse lines h 0
  · intro pre line post hsplit hpre hline
    rw [ReadAll, hsplit, readLines_err parse pre line post hpre hline 0]
    norm_num

/-- Witness for C6: line 1 parses, line 2 is blank, line 3 is corrupt; the
reported line number is 3. -/
theorem C6_witness :
    ReadAll parseW (some ["ok", " ", "bad"]) = .error (.corruptLog 3) :=
  (C6_readAll_corruption parseW ["ok", " ", "bad"]).2.2 ["ok", " "] "bad" []
    rfl (by decide) (by decide)

/-! ## Claim C7 -/

/-- C7: when semantic search is requested but the searcher cannot be
created, the provider is unreachable, or the semantic search call errors,
`HybridSearch` returns mode="keyword" with fallback=true and exactly the
result of a direct keyword search on the canonical store; when semantic
search is not requested it returns mode="keyword" with fallback unset. -/
theorem C7_hybrid_fallback (parse : String → Option Beat)
    (file : Option (List String)) (env : SemanticEnv) (q : String) (n : Int) :
    ((env.newSearcherOk = false ∨ env.available = false ∨
        (∃ e, env.semanticResults = .error e)) →
      HybridSearch parse file env q n true =
        (SearchStore parse file q n).map fun rs => ⟨rs, "keyword", true⟩) ∧
    HybridSearch parse file env q n false =
      (SearchStore parse file q n).map fun rs => ⟨rs, "keyword", false⟩ := by
  constructor
  · intro h
    rcases h with h | h | ⟨e, h⟩
    · simp [HybridSearch, h]
    · cases hn : env.newSearcherOk <;> simp [HybridSearch, h, hn]
    · cases hn : env.newSearcherOk <;> cases ha : env.available <;>
        simp [HybridSearch, h, hn, ha]
  · simp [HybridSearch]

/-- Witness for C7: everything down, semantic requested. -/
theorem C7_witness :
    HybridSearch parseW (some ["ok"]) envDown "one" 10 true =
      (SearchStore parseW (some ["ok"]) "one" 10).map
        fun rs => ⟨rs, "keyword", true⟩ :=
  (C7_hybrid_fallback parseW (some ["ok"]) envDown "one" 10).1 (Or.inl rfl)

/-! ## Claim C8 -/

/-- C8 counterexample: `HybridSearch` does not reject the empty query (it
succeeds on it), and it does propagate an error that is not about the
query — a corrupt log line.  Both directions of the claim fail. -/
theorem C8_counterexample :
    HybridSearch parseW none envDown "" 10 false = .ok ⟨[], "keyword", false⟩ ∧
    HybridSearch parseW (some ["bad"]) envDown "q" 10 false =
      .error (.corruptLog 1) :=
  ⟨rfl, rfl⟩

lemma except_map_error {ε α β : Type} (f : α → β) (x : Except ε α) (e : ε)
    (h : x.map f = .error e) : x = .error e := by
  cases x with
  | error e2 => simpa [Except.map] using h
  | ok a => simp [Except.map] at h

/-- C8 amended: `HybridSearch` itself never fails on a readable log — the
empty query included; every error it returns is one propagated from
reading the canonical log (e.g. a corrupt line), not from the fallback
chain.  The empty-query rejection happens in the robot CLI wrapper before
`HybridSearch` is called. -/
theorem C8_amended_error_propagation (parse : String → Option Beat)
    (file : Option (List String)) (env : SemanticEnv) (q : String) (n : Int)
    (sem : Bool) :
    (∀ beats, ReadAll parse file = .ok beats →
      ∃ out, HybridSearch parse file env q n sem = .ok out) ∧
    (∀ e, HybridSearch parse file env q n sem = .error e →
      ReadAll parse file = .error e) ∧
    (∀ m sem2, RobotSearch parse file env "" m sem2 = .error .queryRequired) := by
  refine ⟨?_, ?_, ?_⟩
  · intro beats h
    rcases hsr : env.semanticResults with e | rs <;>
      cases sem <;> cases hn : env.newSearcherOk <;> cases ha : env.available <;>
      simp [HybridSearch, SearchStore, h, hsr, hn, ha, Except.map]
  · intro e he
    have hsearch : ∀ fb : Bool,
        (SearchStore parse file q n).map
            (fun rs => (⟨rs, "keyword", fb⟩ : SemanticSearchOutput)) = .error e →
        ReadAll parse file = .error e := by
      intro fb hmap
      exact except_map_error _ _ _ (except_map_error _ _ _ hmap)
    rcases hsr : env.semanticResults with e2 | rs <;>
      cases sem <;> cases hn : env.newSearcherOk <;> cases ha : env.available <;>
      rw [HybridSearch] at he <;> simp only [hsr, hn, ha, Bool.not_false,
        Bool.not_true, if_true, if_false] at he <;>
      first
        | exact hsearch _ he
        | cases he
  · intro m sem2
    rfl

/-- Witness for the amended C8: a readable one-record store, semantic
requested with everything down — no error is produced. -/
theorem C8_amended_witness :
    ∃ out, HybridSearch parseW (some ["ok"]) envDown "q" 10 true = .ok out :=
  (C8_amended_error_propagation parseW (some ["ok"]) envDown "q" 10 true).1
    [beatA] rfl

/-! ## Helper lemmas: byte encoding of vectors -/

lemma natToBytes_length (k w : Nat) : (natToBytes k w).length = k := by
  induction k generalizing w with
  | zero => rfl
  | succ k ih => simp [natToBytes, ih]

lemma bytesToNat_natToBytes (k w : Nat) :
    bytesToNat (natToBytes k w) = w % 256 ^ k := by
  induction k generalizing w with
  | zero => simp [natToBytes, bytesToNat, Nat.mod_one]
  | succ k ih =>
    rw [natToBytes, bytesToNat, ih]
    rw [pow_succ']
    rw [Nat.mod_mul]

lemma flatMap_putFloat64LE_length (v : List Nat) :
    (v.flatMap putFloat64LE).length = 8 * v.length := by
  induction v with
  | nil => rfl
  | cons w v' ih =>
    rw [List.flatMap_cons, List.length_append, ih]
    simp [putFloat64LE, natToBytes_length, List.length_cons]
    omega

lemma decode_encode (v : List Nat) (hb : ∀ w ∈ v, w < 2 ^ 64) :
    decodeFloats v.length (v.flatMap putFloat64LE) = v := by
  induction v with
  | nil => rfl
  | cons w v' ih =>
    rw [List.flatMap_cons, List.length_cons, decodeFloats]
    have hlen : (putFloat64LE w).length = 8 := natToBytes_length 8 w
    have htake : (putFloat64LE w ++ v'.flatMap putFloat64LE).take 8 =
        putFloat64LE w := by
      rw [← hlen, List.take_left]
    have hdrop : (putFloat64LE w ++ v'.flatMap putFloat64LE).drop 8 =
        v'.flatMap putFloat64LE := by
      rw [← hlen, List.drop_left]
    rw [getFloat64LE, htake, hdrop, putFloat64LE, bytesToNat_natToBytes]
    have hw : w % 256 ^ 8 = w := by
      apply Nat.mod_eq_of_lt
      have := hb w (List.mem_cons_self w v')
      norm_num at this ⊢
      omega
    rw [hw, ih (fun x hx => hb x (List.mem_cons_of_mem w hx))]

/-! ## Claim C9 -/

/-- C9: storing a vector of the fixed dimension and reading it back
returns it bit-for-bit (entries are the IEEE-754 bit patterns, moved
through the little-endian byte encoding and back unchanged). -/
lemma GetEmbedding_eq (s : EmbStore) (id : String) (off : Nat)
    (hidx : s.index id = some off)
    (hlt : ¬ s.bin.length < off + EmbeddingDimensions * 8) :
    GetEmbedding s id = .ok (decodeFloats EmbeddingDimensions
      ((s.bin.drop off).take (EmbeddingDimensions * 8))) := by
  unfold GetEmbedding
  simp only [hidx]
  rw [if_neg hlt]

theorem C9_embedding_roundtrip (s : EmbStore) (id : String) (v : List Nat)
    (hlen : v.length = EmbeddingDimensions) (hbits : ∀ w ∈ v, w < 2 ^ 64) :
    (StoreEmbedding s id v).bind (fun s2 => GetEmbedding s2 id) = .ok v := by
  unfold StoreEmbedding
  rw [if_neg (by rw [hlen]; exact fun h => h rfl)]
  show GetEmbedding ⟨s.bin ++ v.flatMap putFloat64LE,
    fun id2 => if id2 = id then some s.bin.length else s.index id2⟩ id = .ok v
  rw [GetEmbedding_eq _ id s.bin.length
    (by show (if id = id then some s.bin.length else s.index id) = some s.bin.length
        rw [if_pos rfl])
    (by show ¬ (s.bin ++ v.flatMap putFloat64LE).length <
          s.bin.length + EmbeddingDimensions * 8
        rw [List.length_append, flatMap_putFloat64LE_length, hlen]
        unfold EmbeddingDimensions
        omega)]
  show Except.ok (decodeFloats EmbeddingDimensions
    (((s.bin ++ v.flatMap putFloat64LE).drop s.bin.length).take
      (EmbeddingDimensions * 8))) = .ok v
  rw [List.drop_left]
  have htake : (v.flatMap putFloat64LE).take (EmbeddingDimensions * 8) =
      v.flatMap putFloat64LE := by
    apply List.take_of_length_le
    rw [flatMap_putFloat64LE_length, hlen]
    omega
  rw [htake, ← hlen, decode_encode v hbits]

/-- Witness for C9: the vector `[0, 1, …, 767]` round-trips through an
empty store. -/
theorem C9_witness :
    (StoreEmbedding embEmpty "beat-20260101-001" (List.range 768)).bind
      (fun s2 => GetEmbedding s2 "beat-20260101-001") = .ok (List.range 768) :=
  C9_embedding_roundtrip embEmpty "beat-20260101-001" (List.range 768)
    (by simp [EmbeddingDimensions])
    (fun w hw => by have := List.mem_range.mp hw; omega)

end Beats
